import Mathlib

/-!
Verification of the `frame-sequence` library (`src/lib.rs`): a parser that
expands a textual frame-sequence notation (for example `1,3-5,10-20@2` or
`10-20@b`) into a list of integer frame numbers.

The file contains a shallow embedding of the Rust source:

* `chopPass`, `chopGo`, `chop`, `binary_sequence` — the binary-subdivision
  strategy (`src/lib.rs` lines 57-98).  `chop` is recursive in Rust with no
  structural measure (on some argument combinations the Rust function would
  not terminate), so the embedding threads an explicit fuel argument; for the
  argument shapes produced by `binary_sequence` the sequence grows by at least
  one element per pass while the loop continues, so `elements + 1` units of
  fuel are never exhausted and the fueled function computes exactly what the
  Rust recursion computes on those inputs.
* `stepByGo`/`stepBy`, `rustRange`, `stepped_frames`, `stepless_frames` — the
  stepped and contiguous range expansions written inline in
  `frame_sequence_token_tree_to_frames` (lines 121-146).  Rust `a..b`
  iteration becomes `rustRange a b`, `Iterator::step_by` becomes `stepBy`,
  and Rust `isize` division (which truncates toward zero) becomes `Int.tdiv`.
* `removeDupGo`, `remove_duplicates` — the deduplicator (lines 155-168), with
  the `HashSet` of already-seen values modelled as a list queried through
  decidable membership.
* a token tree and a parser for the grammar of the crate.  The pest grammar
  file `frame_format_grammar.pest` is referenced by the source but is not
  part of the observed sources, so the parser is modelled from the spec's
  EBNF; every such definition is marked `Modelled from the spec:` in its
  doc comment.  Numeric conversion of a literal (`frame_to_number`,
  lines 100-102) unwraps a fallible `isize` parse: the `None` value of the
  embedding stands for the panic that `unwrap` raises on an out-of-range
  digit run, and `ParseOutcome.overflowAbort` records that the whole call
  aborts rather than returning.

Theorems about the claims follow the definitions.
-/

namespace FrameSeq

/-- One pass of the binary-subdivision loop: the body of the
`tuple_windows().flat_map(..)` expression in `chop` (`src/lib.rs` lines
59-72).  For every consecutive window `(a, b)` of the input sequence it
computes `mid = (a + b) / 2` with Rust (truncating) integer division; the
first component collects the flat-mapped next-level sequence (without the
trailing anchor element), the second collects the values pushed onto
`result`, in window order. -/
def chopPass : List Int → List Int × List Int
  | a :: b :: rest =>
    let mid := Int.tdiv (a + b) 2
    let t := chopPass (b :: rest)
    if a < mid then (a :: mid :: t.1, mid :: t.2) else (a :: t.1, t.2)
  | _ => ([], [])

/-- Fueled form of the recursive `chop` (`src/lib.rs` lines 57-79), returning
the final contents of `result`.  Each recursive call of the Rust function
consumes one unit of fuel; `binary_sequence` supplies enough fuel that the
zero-fuel branch is never taken on its calls. -/
def chopGo : Nat → List Int → List Int → Nat → List Int
  | 0, _, result, _ => result
  | fuel + 1, seq, result, elements =>
    if seq.length < elements then
      let p := chopPass seq
      let newSeq := p.1 ++ [seq.getLastD 0]
      let result1 := result ++ p.2
      if newSeq.length < elements then chopGo fuel newSeq result1 elements
      else result1
    else result

/-- The `chop` entry point as `binary_sequence` uses it: run the recursion and
keep the final `result` vector. -/
def chop (seq result : List Int) (elements : Nat) : List Int :=
  chopGo (elements + 1) seq result elements

/-- Translation of `binary_sequence` (`src/lib.rs` lines 81-98).  Note that
the Rust source passes `range.1 - range.0` (respectively `range.0 - range.1`)
as the `elements` argument — not the count `range.1 - range.0 + 1` of
integers in the inclusive range. -/
def binary_sequence (range : Int × Int) : List Int :=
  if range.1 < range.2 then
    chop [range.1, range.2] [range.1, range.2] (range.2 - range.1).toNat
  else if range.2 < range.1 then
    (chop [range.2, range.1] [range.2, range.1] (range.1 - range.2).toNat).reverse
  else [range.1]

/-- Helper for `stepBy`: `stepByGo s n l` skips `n` elements, yields the
next one, then repeats with `s - 1` elements skipped — exactly the cadence of
Rust `Iterator::step_by(s)` (which always yields the first element and then
every `s`-th one).  Rust panics when `s = 0`; the grammar guarantees `s ≥ 1`
for every call made by the interpreter. -/
def stepByGo (s : Nat) : Nat → List Int → List Int
  | _, [] => []
  | 0, x :: xs => x :: stepByGo s (s - 1) xs
  | n + 1, _ :: xs => stepByGo s n xs

/-- Rust `Iterator::step_by(s)` on a list: elements at indices `0, s, 2*s, …`. -/
def stepBy (s : Nat) (l : List Int) : List Int :=
  stepByGo s 0 l

/-- Rust `a..b` iteration over `isize`: the integers `a, a+1, …, b-1`
(empty when `b ≤ a`). -/
def rustRange (a b : Int) : List Int :=
  (List.range (b - a).toNat).map fun (i : Nat) => a + (i : Int)

/-- The `Rule::PositiveNumber` arm of the interpreter (`src/lib.rs` lines
124-133): `(left..right+1).step_by(step)` for an ascending range,
`(right..left+1).rev().step_by(step)` for a descending one, `[left]` for
equal bounds. -/
def stepped_frames (left right : Int) (step : Nat) : List Int :=
  if left < right then stepBy step (rustRange left (right + 1))
  else if right < left then stepBy step (rustRange right (left + 1)).reverse
  else [left]

/-- The step-free arms of the interpreter (`src/lib.rs` lines 138-146):
`(left..right+1)` ascending, `(right..left+1).rev()` descending, `[left]`
for equal bounds. -/
def stepless_frames (left right : Int) : List Int :=
  if left < right then rustRange left (right + 1)
  else if right < left then (rustRange right (left + 1)).reverse
  else [left]

/-- The loop of `remove_duplicates` (`src/lib.rs` lines 155-168): `seen`
models the `HashSet` of values inserted so far, and an element is kept
exactly when it is not yet in the set. -/
def removeDupGo : List Int → List Int → List Int
  | _, [] => []
  | seen, e :: rest =>
    if e ∈ seen then removeDupGo seen rest
    else e :: removeDupGo (e :: seen) rest

/-- Translation of `remove_duplicates` (`src/lib.rs` lines 155-168). -/
def remove_duplicates (l : List Int) : List Int :=
  removeDupGo [] l

/-- Modelled from the spec: the step specifier of a `FrameRange` node of the
token tree (spec section 3) — either a `PositiveNumber` literal, kept as its
digit run, or the `BinarySequenceSymbol` marker. -/
inductive StepKind where
  | num (digits : List Char)
  | binary
deriving DecidableEq

/-- Modelled from the spec: a `Frame` literal of the token tree — an optional
leading minus sign and a nonempty digit run (spec grammar rule
`Frame := "-"? Digit+`). -/
structure FrameTok where
  neg : Bool
  digits : List Char
deriving DecidableEq

/-- Modelled from the spec: a `FrameSequencePart` node of the token tree — a
single `Frame` literal or a `FrameRange` with its optional step specifier
(spec section 3).  The root `FrameSequence` node is the list of its parts. -/
inductive FrameSequencePart where
  | frame (tok : FrameTok)
  | range (left right : FrameTok) (step : Option StepKind)
deriving DecidableEq

/-- Modelled from the spec: consume the longest `Digit+` run from the front
of the input, returning the digits and the remaining characters. -/
def takeDigits : List Char → List Char × List Char
  | [] => ([], [])
  | c :: cs =>
    if c.isDigit then
      let p := takeDigits cs
      (c :: p.1, p.2)
    else ([], c :: cs)

/-- Modelled from the spec: parse one `Frame := "-"? Digit+` literal from the
front of the input; fails when no digit run follows the optional sign. -/
def parseFrame : List Char → Option (FrameTok × List Char)
  | '-' :: cs =>
    let p := takeDigits cs
    if p.1.isEmpty then none else some (⟨true, p.1⟩, p.2)
  | cs =>
    let p := takeDigits cs
    if p.1.isEmpty then none else some (⟨false, p.1⟩, p.2)

/-- Numeric value of a digit run, accumulator style. -/
def digitsToNatGo : Nat → List Char → Nat
  | acc, [] => acc
  | acc, c :: cs => digitsToNatGo (10 * acc + (c.toNat - 48)) cs

/-- Numeric value of a `Digit+` run. -/
def digitsToNat (l : List Char) : Nat :=
  digitsToNatGo 0 l

/-- Modelled from the spec: parse one
`FrameSequencePart := FrameRange | Frame` with
`FrameRange := Frame "-" Frame ("@" (PositiveNumber | BinarySequenceSymbol))?`.
A step literal whose value is `0` is rejected (spec: `PositiveNumber` must be
positive, a literal `0` is a syntax error). -/
def parsePart (cs : List Char) : Option (FrameSequencePart × List Char) :=
  match parseFrame cs with
  | none => none
  | some (l, r1) =>
    match r1 with
    | '-' :: r2 =>
      (match parseFrame r2 with
       | none => none
       | some (rt, r3) =>
         match r3 with
         | '@' :: r4 =>
           (match r4 with
            | 'b' :: r5 => some (.range l rt (some .binary), r5)
            | _ =>
              let p := takeDigits r4
              if p.1.isEmpty then none
              else if digitsToNat p.1 = 0 then none
              else some (.range l rt (some (.num p.1)), p.2))
         | _ => some (.range l rt none, r3))
    | _ => some (.frame l, r1)

/-- Modelled from the spec: parse
`FrameSequence := FrameSequencePart ("," FrameSequencePart)*`.  The fuel
argument dominates the number of comma-separated parts; the entry point
passes one more than the length of the input, which can never run out
because every part consumes at least one character. -/
def parseSeqGo : Nat → List Char → Option (List FrameSequencePart × List Char)
  | 0, _ => none
  | fuel + 1, cs =>
    match parsePart cs with
    | none => none
    | some (p, r) =>
      match r with
      | ',' :: r2 =>
        (match parseSeqGo fuel r2 with
         | none => none
         | some (ps, r3) => some (p :: ps, r3))
      | _ => some ([p], r)

/-- Modelled from the spec: parse a whole
`FrameSequenceString := FrameSequence EOI` — the input must be consumed
completely, trailing characters are a syntax error. -/
def parseFrameSequenceString (cs : List Char) : Option (List FrameSequencePart) :=
  match parseSeqGo (cs.length + 1) cs with
  | some (t, []) => some t
  | _ => none

/-- Smallest value of Rust `isize` on the 64-bit targets the crate documents
(`Frame` must support at least 64-bit magnitude). -/
def isizeMin : Int := -(2 ^ 63)

/-- Largest value of Rust `isize` on 64-bit targets. -/
def isizeMax : Int := 2 ^ 63 - 1

/-- Exact mathematical value of a `Frame` literal: the value of its digit
run, negated when the literal carries a minus sign. -/
def frameTokVal (t : FrameTok) : Int :=
  if t.neg then -(digitsToNat t.digits : Int) else (digitsToNat t.digits : Int)

/-- Translation of `frame_to_number` (`src/lib.rs` lines 100-102):
`frame.as_str().parse::<isize>().unwrap()`.  The `isize` parse yields the
exact value of the literal when it fits and an error otherwise — it never
wraps around — and `unwrap` turns that error into a panic, modelled here by
`none`. -/
def frame_to_number (t : FrameTok) : Option Int :=
  if isizeMin ≤ frameTokVal t ∧ frameTokVal t ≤ isizeMax then some (frameTokVal t)
  else none

/-- The `FrameRange`/`Frame` arms of `frame_sequence_token_tree_to_frames`
(`src/lib.rs` lines 108-150) for a single part.  The step literal is
converted with `frame_to_number` exactly as in the source; `none` propagates
the panic of any out-of-range literal. -/
def part_to_frames : FrameSequencePart → Option (List Int)
  | .frame t =>
    (match frame_to_number t with
     | none => none
     | some v => some [v])
  | .range lt rt st =>
    (match frame_to_number lt, frame_to_number rt with
     | some lv, some rv =>
       (match st with
        | none => some (stepless_frames lv rv)
        | some StepKind.binary => some (binary_sequence (lv, rv))
        | some (StepKind.num d) =>
          (match frame_to_number ⟨false, d⟩ with
           | none => none
           | some sv => some (stepped_frames lv rv sv.toNat)))
     | _, _ => none)

/-- Translation of `frame_sequence_token_tree_to_frames` (`src/lib.rs` lines
104-153): concatenate the expansions of the parts in order; a panic (`none`)
anywhere aborts the whole conversion. -/
def frame_sequence_token_tree_to_frames : List FrameSequencePart → Option (List Int)
  | [] => some []
  | p :: ps =>
    (match part_to_frames p, frame_sequence_token_tree_to_frames ps with
     | some a, some b => some (a ++ b)
     | _, _ => none)

/-- Observable outcome of one call to `parse_frame_sequence`: a frame list,
a typed grammar error (`pest::error::Error`), or the process abort raised by
the `unwrap` in `frame_to_number` on a numeric overflow. -/
inductive ParseOutcome where
  | ok (frames : List Int)
  | syntaxError
  | overflowAbort
deriving DecidableEq

/-- Translation of `parse_frame_sequence` (`src/lib.rs` lines 52-55) over the
spec-modelled grammar: parse, then `remove_duplicates` of the interpreted
token tree; a grammar failure is returned as the typed error, an overflow
panic aborts the call. -/
def parse_frame_sequence (cs : List Char) : ParseOutcome :=
  match parseFrameSequenceString cs with
  | none => .syntaxError
  | some t =>
    (match frame_sequence_token_tree_to_frames t with
     | none => .overflowAbort
     | some l => .ok (remove_duplicates l))

/-- A part of the token tree contains a digit run whose value does not fit in
`isize` (in a bound or in a step literal). -/
def partHasOverflow : FrameSequencePart → Bool
  | .frame t => (frame_to_number t).isNone
  | .range lt rt st =>
    (frame_to_number lt).isNone || (frame_to_number rt).isNone ||
      (match st with
       | some (StepKind.num d) => (frame_to_number ⟨false, d⟩).isNone
       | _ => false)

/-- Some part of the token tree contains an out-of-range digit run. -/
def treeHasOverflow (t : List FrameSequencePart) : Bool :=
  t.any partHasOverflow

/-- The ascending inclusive integer list `a, a+1, …, b` (spec wording for a
stepless range with `a < b`); used as the specification side of claim C5. -/
def inclusiveAsc (a b : Int) : List Int :=
  (List.range ((b - a).toNat + 1)).map fun (i : Nat) => a + (i : Int)

/-- The descending inclusive integer list `a, a-1, …, b` (spec wording for a
stepless range with `a > b`); used as the specification side of claim C5. -/
def inclusiveDesc (a b : Int) : List Int :=
  (List.range ((a - b).toNat + 1)).map fun (i : Nat) => a - (i : Int)

/-- Specification-side deduplication, written from the claim's words: keep
the first occurrence of each distinct value, in the relative order of those
first occurrences — keep the head, delete its later occurrences, recurse. -/
def firstOccurrences : List Int → List Int
  | [] => []
  | x :: xs => x :: firstOccurrences (xs.filter fun y => decide (y ≠ x))
termination_by l => l.length
decreasing_by
  simp only [List.length_cons]
  exact Nat.lt_succ_of_le (List.length_filter_le _ _)

/-! ## Helper lemmas -/

theorem stepByGo_getElem? (s : Nat) (hs : 0 < s) :
    ∀ (l : List Int) (n k : Nat), (stepByGo s n l)[k]? = l[n + s * k]? := by
  intro l
  induction l with
  | nil => intro n k; simp [stepByGo]
  | cons x xs ih =>
    intro n k
    cases n with
    | zero =>
      cases k with
      | zero => simp [stepByGo]
      | succ k =>
        have h : 0 + s * (k + 1) = ((s - 1) + s * k) + 1 := by
          rw [Nat.mul_succ]; omega
        rw [h]
        show (x :: stepByGo s (s - 1) xs)[k + 1]? = (x :: xs)[((s - 1) + s * k) + 1]?
        rw [List.getElem?_cons_succ, List.getElem?_cons_succ]
        exact ih (s - 1) k
    | succ n =>
      have h : (n + 1) + s * k = (n + s * k) + 1 := by omega
      rw [h]
      show (stepByGo s n xs)[k]? = (x :: xs)[(n + s * k) + 1]?
      rw [List.getElem?_cons_succ]
      exact ih n k

theorem stepBy_getElem? (s : Nat) (hs : 0 < s) (l : List Int) (k : Nat) :
    (stepBy s l)[k]? = l[s * k]? := by
  have h := stepByGo_getElem? s hs l 0 k
  simpa [stepBy] using h

theorem rustRange_length (a b : Int) : (rustRange a b).length = (b - a).toNat := by
  simp [rustRange]

theorem rustRange_getElem? (a b : Int) (k : Nat) :
    (rustRange a b)[k]? = if k < (b - a).toNat then some (a + (k : Int)) else none := by
  by_cases h : k < (b - a).toNat
  · simp [rustRange, List.getElem?_map, List.getElem?_range h, h]
  · rw [if_neg h]
    apply List.getElem?_eq_none
    simp [rustRange]
    omega

theorem rustRange_reverse (a b : Int) :
    (rustRange a b).reverse = (List.range (b - a).toNat).map fun (i : Nat) => b - 1 - (i : Int) := by
  apply List.ext_getElem?
  intro k
  by_cases h : k < (b - a).toNat
  · have hlen : (rustRange a b).length = (b - a).toNat := rustRange_length a b
    rw [List.getElem?_reverse (by rw [hlen]; exact h), hlen]
    rw [rustRange_getElem?]
    rw [if_pos (by omega)]
    rw [List.getElem?_map, List.getElem?_range h]
    simp only [Option.map_some']
    congr 1
    omega
  · rw [List.getElem?_eq_none (by rw [List.length_reverse, rustRange_length]; omega)]
    rw [List.getElem?_eq_none (by rw [List.length_map, List.length_range]; omega)]

theorem removeDupGo_not_mem_seen :
    ∀ (l seen : List Int) (x : Int), x ∈ removeDupGo seen l → x ∉ seen := by
  intro l
  induction l with
  | nil => intro seen x h; simp [removeDupGo] at h
  | cons e rest ih =>
    intro seen x h
    simp only [removeDupGo] at h
    by_cases he : e ∈ seen
    · rw [if_pos he] at h
      exact ih seen x h
    · rw [if_neg he] at h
      rcases List.mem_cons.mp h with rfl | hx
      · exact he
      · intro hxseen
        exact ih (e :: seen) x hx (List.mem_cons_of_mem e hxseen)

theorem removeDupGo_nodup : ∀ (l seen : List Int), (removeDupGo seen l).Nodup := by
  intro l
  induction l with
  | nil => intro seen; simp [removeDupGo]
  | cons e rest ih =>
    intro seen
    simp only [removeDupGo]
    by_cases he : e ∈ seen
    · rw [if_pos he]; exact ih seen
    · rw [if_neg he]
      refine List.nodup_cons.mpr ⟨?_, ih (e :: seen)⟩
      intro hmem
      exact removeDupGo_not_mem_seen rest (e :: seen) e hmem (List.mem_cons_self e seen)

theorem removeDupGo_sublist : ∀ (l seen : List Int), (removeDupGo seen l).Sublist l := by
  intro l
  induction l with
  | nil => intro seen; simp [removeDupGo]
  | cons e rest ih =>
    intro seen
    simp only [removeDupGo]
    by_cases he : e ∈ seen
    · rw [if_pos he]; exact (ih seen).cons e
    · rw [if_neg he]; exact (ih (e :: seen)).cons₂ e

theorem removeDupGo_eq_self :
    ∀ (l seen : List Int), l.Nodup → (∀ x ∈ l, x ∉ seen) → removeDupGo seen l = l := by
  intro l
  induction l with
  | nil => intro seen _ _; simp [removeDupGo]
  | cons e rest ih =>
    intro seen hnd hdisj
    have he : e ∉ seen := hdisj e (List.mem_cons_self e rest)
    simp only [removeDupGo, if_neg he]
    congr 1
    refine ih (e :: seen) (List.nodup_cons.mp hnd).2 ?_
    intro x hx
    intro hmem
    rcases List.mem_cons.mp hmem with rfl | hxs
    · exact (List.nodup_cons.mp hnd).1 hx
    · exact hdisj x (List.mem_cons_of_mem e hx) hxs

theorem removeDupGo_eq_firstOccurrences :
    ∀ (l seen : List Int),
      removeDupGo seen l = firstOccurrences (l.filter fun x => decide (x ∉ seen)) := by
  intro l
  induction l with
  | nil => intro seen; simp [removeDupGo, firstOccurrences]
  | cons e rest ih =>
    intro seen
    simp only [removeDupGo, List.filter_cons]
    by_cases he : e ∈ seen
    · rw [if_pos he]
      have hd : decide (e ∉ seen) = false := by simp [he]
      rw [hd]
      simp only [Bool.false_eq_true, if_false]
      exact ih seen
    · rw [if_neg he]
      have hd : decide (e ∉ seen) = true := by simp [he]
      rw [hd]
      simp only [if_true]
      rw [firstOccurrences]
      congr 1
      rw [ih (e :: seen), List.filter_filter]
      congr 1
      apply List.filter_congr
      intro a _
      simp [List.mem_cons, not_or, Bool.and_comm, decide_not]

theorem chopGo_append :
    ∀ (fuel : Nat) (seq res : List Int) (el : Nat),
      ∃ t, chopGo fuel seq res el = res ++ t := by
  intro fuel
  induction fuel with
  | zero => intro seq res el; exact ⟨[], by simp [chopGo]⟩
  | succ fuel ih =>
    intro seq res el
    simp only [chopGo]
    by_cases h1 : seq.length < el
    · rw [if_pos h1]
      by_cases h2 : ((chopPass seq).1 ++ [seq.getLastD 0]).length < el
      · rw [if_pos h2]
        obtain ⟨t, ht⟩ :=
          ih ((chopPass seq).1 ++ [seq.getLastD 0]) (res ++ (chopPass seq).2) el
        exact ⟨(chopPass seq).2 ++ t, by rw [ht, List.append_assoc]⟩
      · rw [if_neg h2]
        exact ⟨(chopPass seq).2, rfl⟩
    · rw [if_neg h1]
      exact ⟨[], by simp⟩

theorem part_to_frames_overflow :
    ∀ p : FrameSequencePart, partHasOverflow p = true → part_to_frames p = none := by
  intro p h
  cases p with
  | frame t =>
    simp only [partHasOverflow, Option.isNone_iff_eq_none] at h
    simp [part_to_frames, h]
  | range lt rt st =>
    simp only [partHasOverflow, Bool.or_eq_true, Option.isNone_iff_eq_none] at h
    cases hl : frame_to_number lt with
    | none => cases hr : frame_to_number rt <;> simp [part_to_frames, hl, hr]
    | some lv =>
      cases hr : frame_to_number rt with
      | none => simp [part_to_frames, hl, hr]
      | some rv =>
        rcases h with (h | h) | h
        · rw [hl] at h; simp at h
        · rw [hr] at h; simp at h
        · cases st with
          | none => simp at h
          | some sk =>
            cases sk with
            | binary => simp at h
            | num d =>
              simp only [Option.isNone_iff_eq_none] at h
              simp [part_to_frames, hl, hr, h]

theorem tree_to_frames_overflow :
    ∀ t : List FrameSequencePart,
      treeHasOverflow t = true → frame_sequence_token_tree_to_frames t = none := by
  intro t
  induction t with
  | nil => intro h; simp [treeHasOverflow] at h
  | cons p ps ih =>
    intro h
    simp only [treeHasOverflow, List.any_cons, Bool.or_eq_true] at h
    rcases h with hp | hps
    · simp [frame_sequence_token_tree_to_frames, part_to_frames_overflow p hp]
    · have := ih hps
      cases hpf : part_to_frames p <;>
        simp [frame_sequence_token_tree_to_frames, hpf, this]

/-- Validation of the embedding: the six example expansions documented in
the crate (`src/lib.rs` doc comment and tests) are reproduced exactly by the
embedded pipeline. -/
theorem crate_documented_examples :
    parse_frame_sequence "1,2,3,5,8,13".toList = ParseOutcome.ok [1, 2, 3, 5, 8, 13] ∧
    parse_frame_sequence "10-15".toList = ParseOutcome.ok [10, 11, 12, 13, 14, 15] ∧
    parse_frame_sequence "10-20@2".toList = ParseOutcome.ok [10, 12, 14, 16, 18, 20] ∧
    parse_frame_sequence "42-33@3".toList = ParseOutcome.ok [42, 39, 36, 33] ∧
    parse_frame_sequence "10-20@b".toList
      = ParseOutcome.ok [10, 20, 15, 12, 17, 11, 13, 16, 18, 14, 19] ∧
    parse_frame_sequence "80-70@4".toList = ParseOutcome.ok [80, 76, 72] :=
  ⟨by decide, by decide, by decide, by decide, by decide, by decide⟩

/-! ## Claim theorems -/

/-- Claim C1 (code bug, evaluation at the failing input): the claim says that
for a binary-subdivision range with `a < b` and `n = b - a + 1` the output
has length exactly `n` and contains each integer of `[a, b]` exactly once.
At the range `(1, 3)` the code returns `[1, 3]`: the interior value `2` is
never emitted and the length is `2`, not `n = 3`, because `binary_sequence`
passes `b - a` instead of `b - a + 1` as the target length to `chop`, so the
recursion stops one pass too early. -/
theorem binary_sequence_c1_missing_interior :
    binary_sequence (1, 3) = [1, 3] ∧ (binary_sequence (1, 3)).length = 2 ∧
      (2 : Int) ∉ binary_sequence (1, 3) :=
  ⟨by decide, by decide, by decide⟩

/-- Claim C2 (counterexample): for the descending range `(4, 1)` the claim
says the first two returned elements are `4` then `1`; the code returns
`[2, 4, 1]`, whose first two elements are `2` and `4` — reversing the
ascending result moves the endpoints to the end of the list, not to the
front. -/
theorem binary_sequence_c2_first_two_cex :
    binary_sequence (4, 1) = [2, 4, 1] ∧ (binary_sequence (4, 1)).take 2 ≠ [4, 1] :=
  ⟨by decide, by decide⟩

/-- Claim C2 (amended): for a descending pair `(l, r)` with `r < l`,
`binary_sequence` runs the ascending algorithm on the swapped pair and
reverses its result; consequently the *last* two elements of the returned
list are the original `l` then `r` (not the first two, as the claim put
it). -/
theorem binary_sequence_c2_reverse_of_swapped (l r : Int) (h : r < l) :
    binary_sequence (l, r) = (binary_sequence (r, l)).reverse ∧
      ∃ t, binary_sequence (l, r) = t ++ [l, r] := by
  have h' : ¬ l < r := by omega
  have e1 : binary_sequence (l, r) = (chop [r, l] [r, l] (l - r).toNat).reverse := by
    simp [binary_sequence, h, h']
  have e2 : binary_sequence (r, l) = chop [r, l] [r, l] (l - r).toNat := by
    simp [binary_sequence, h]
  constructor
  · rw [e1, e2]
  · obtain ⟨t, ht⟩ := chopGo_append ((l - r).toNat + 1) [r, l] [r, l] (l - r).toNat
    refine ⟨t.reverse, ?_⟩
    rw [e1]
    unfold chop
    rw [ht, List.reverse_append]
    rfl

/-- Claim C3 (counterexample): in the first bisection pass over the sequence
`[-5, -2]`, the window `(-5, -2)` emits the midpoint `-3` (Rust division
truncates toward zero), while the claimed floor midpoint is
`⌊(-5 + -2) / 2⌋ = -4`; since `-5 < -4`, the claim would require `-4` to be
emitted, but `-4` never appears in the output. -/
theorem chopPass_c3_floor_cex :
    (chopPass [-5, -2]).2 = [-3] ∧ Int.fdiv ((-5) + (-2)) 2 = -4 ∧
      (-5 : Int) < -4 ∧ (-4 : Int) ∉ binary_sequence (-5, -2) ∧
      binary_sequence (-5, -2) = [-5, -2, -3] :=
  ⟨by decide, by decide, by decide, by decide, by decide⟩

/-- Claim C3 (amended): in every bisection pass, the values pushed onto
`result` are exactly, in window order, the midpoints
`mid = (left + right) / 2` of the consecutive windows `(left, right)` of the
current sequence — with Rust's truncating integer division (`Int.tdiv`,
which agrees with floor division only when `left + right ≥ 0`) — and a
window's midpoint is emitted exactly when `left < mid`. -/
theorem chopPass_c3_mids (l : List Int) :
    (chopPass l).2 = (l.zip l.tail).filterMap fun p =>
      if p.1 < Int.tdiv (p.1 + p.2) 2 then some (Int.tdiv (p.1 + p.2) 2) else none := by
  induction l with
  | nil => simp [chopPass]
  | cons x xs ih =>
    cases xs with
    | nil => simp [chopPass]
    | cons y rest =>
      have htail : (x :: y :: rest).tail = y :: rest := rfl
      rw [htail, List.zip_cons_cons, List.filterMap_cons]
      by_cases hx : x < Int.tdiv (x + y) 2
      · simp only [chopPass]
        rw [if_pos hx]
        simp only [hx, if_pos]
        rw [ih]
        rfl
      · simp only [chopPass]
        rw [if_neg hx]
        simp only [hx, if_neg]
        rw [ih]
        rfl

/-- Claim C2 witness: the amended statement applied at the concrete
descending range `(4, 1)`. -/
theorem binary_sequence_c2_reverse_of_swapped_witness :
    (1 : Int) < 4 ∧ (binary_sequence (4, 1) = (binary_sequence (1, 4)).reverse ∧
      ∃ t, binary_sequence (4, 1) = t ++ [4, 1]) :=
  ⟨by decide, binary_sequence_c2_reverse_of_swapped 4 1 (by decide)⟩

theorem stepped_frames_asc_getElem? (left right : Int) (s : Nat) (hs : 0 < s)
    (h : left < right) (k : Nat) :
    (stepped_frames left right s)[k]? =
      if (s : Int) * (k : Int) ≤ right - left
      then some (left + (s : Int) * (k : Int)) else none := by
  have hcast : (s : Int) * (k : Int) = ((s * k : Nat) : Int) := by push_cast; ring
  simp only [stepped_frames, if_pos h]
  rw [stepBy_getElem? s hs, rustRange_getElem?]
  by_cases hk : s * k < ((right + 1) - left).toNat
  · rw [if_pos hk, if_pos (by rw [hcast]; omega)]
    rw [hcast]
  · rw [if_neg hk, if_neg (by rw [hcast]; omega)]

theorem stepped_frames_desc_getElem? (left right : Int) (s : Nat) (hs : 0 < s)
    (h : right < left) (k : Nat) :
    (stepped_frames left right s)[k]? =
      if (s : Int) * (k : Int) ≤ left - right
      then some (left - (s : Int) * (k : Int)) else none := by
  have h' : ¬ left < right := by omega
  have hcast : (s : Int) * (k : Int) = ((s * k : Nat) : Int) := by push_cast; ring
  simp only [stepped_frames, if_neg h', if_pos h]
  rw [stepBy_getElem? s hs, rustRange_reverse, List.getElem?_map]
  by_cases hk : s * k < ((left + 1) - right).toNat
  · rw [List.getElem?_range hk]
    simp only [Option.map_some']
    rw [if_pos (by rw [hcast]; omega)]
    congr 1
    rw [hcast]
    omega
  · rw [List.getElem?_eq_none (by rw [List.length_range]; omega)]
    simp only [Option.map_none']
    rw [if_neg (by rw [hcast]; omega)]

/-- Claim C5 (confirmed): a stepless range expands to the ascending
inclusive list `left..=right` when `left < right`, to the descending
inclusive list from `left` down to `right` when `left > right`, and to
`[left]` when the bounds coincide. -/
theorem stepless_frames_c5_spec (left right : Int) :
    stepless_frames left right =
      if left < right then inclusiveAsc left right
      else if right < left then inclusiveDesc left right
      else [left] := by
  by_cases h1 : left < right
  · simp only [stepless_frames, inclusiveAsc, if_pos h1]
    unfold rustRange
    have hn : ((right + 1) - left).toNat = (right - left).toNat + 1 := by omega
    rw [hn]
  · by_cases h2 : right < left
    · simp only [stepless_frames, if_neg h1, if_pos h2]
      rw [rustRange_reverse]
      unfold inclusiveDesc
      have hn : ((left + 1) - right).toNat = (left - right).toNat + 1 := by omega
      rw [hn]
      apply List.map_congr_left
      intro i _
      omega
    · simp [stepless_frames, h1, h2]

/-- Claim C4 (confirmed): for a stepped range with positive step `s` and
`left ≠ right`, every emitted value differs from `left` by a multiple of `s`
and lies between the bounds; the expansion starts at `left` and its `k`-th
element is `left + s*k` (ascending) or `left - s*k` (descending), that is,
it proceeds from `left` by `±s` toward `right`; and the bound `right`
appears in the output exactly when `right - left` is a multiple of `s`. -/
theorem stepped_frames_c4_spec (left right : Int) (s : Nat) (hs : 0 < s)
    (hne : left ≠ right) :
    (∀ v ∈ stepped_frames left right s,
        (v - left) % (s : Int) = 0 ∧ min left right ≤ v ∧ v ≤ max left right) ∧
    (stepped_frames left right s)[0]? = some left ∧
    (∀ (k : Nat) (v : Int), (stepped_frames left right s)[k]? = some v →
        v = left + (if left < right then (s : Int) else -(s : Int)) * (k : Int)) ∧
    (right ∈ stepped_frames left right s ↔ (right - left) % (s : Int) = 0) := by
  have hs' : (0 : Int) < (s : Int) := by exact_mod_cast hs
  rcases lt_or_gt_of_ne hne with h | h
  · -- ascending: left < right
    have hmem : ∀ v : Int, v ∈ stepped_frames left right s ↔
        ∃ k : Nat, (s : Int) * (k : Int) ≤ right - left ∧
          v = left + (s : Int) * (k : Int) := by
      intro v
      rw [List.mem_iff_getElem?]
      constructor
      · rintro ⟨k, hk⟩
        rw [stepped_frames_asc_getElem? left right s hs h k] at hk
        by_cases hc : (s : Int) * (k : Int) ≤ right - left
        · rw [if_pos hc] at hk
          exact ⟨k, hc, (Option.some.inj hk).symm⟩
        · rw [if_neg hc] at hk
          cases hk
      · rintro ⟨k, hc, rfl⟩
        refine ⟨k, ?_⟩
        rw [stepped_frames_asc_getElem? left right s hs h k, if_pos hc]
    refine ⟨?_, ?_, ?_, ?_⟩
    · intro v hv
      obtain ⟨k, hc, rfl⟩ := (hmem v).mp hv
      have h0 : (0 : Int) ≤ (s : Int) * (k : Int) := by positivity
      refine ⟨?_, ?_, ?_⟩
      · have he : left + (s : Int) * (k : Int) - left = (s : Int) * (k : Int) := by ring
        rw [he]
        exact Int.mul_emod_right _ _
      · rw [min_eq_left h.le]; linarith
      · rw [max_eq_right h.le]; linarith
    · rw [stepped_frames_asc_getElem? left right s hs h 0]
      rw [if_pos (by push_cast; omega)]
      push_cast
      norm_num
    · intro k v hkv
      rw [stepped_frames_asc_getElem? left right s hs h k] at hkv
      by_cases hc : (s : Int) * (k : Int) ≤ right - left
      · rw [if_pos hc] at hkv
        rw [if_pos h]
        exact (Option.some.inj hkv).symm
      · rw [if_neg hc] at hkv
        cases hkv
    · rw [hmem right]
      constructor
      · rintro ⟨k, hc, hv⟩
        have he : right - left = (s : Int) * (k : Int) := by linarith
        rw [he]
        exact Int.mul_emod_right _ _
      · intro hmod
        obtain ⟨c, hc⟩ := Int.dvd_of_emod_eq_zero hmod
        have hc0 : 0 ≤ c := by
          by_contra hneg
          push_neg at hneg
          have : (s : Int) * c < 0 := mul_neg_of_pos_of_neg hs' hneg
          linarith
        refine ⟨c.toNat, ?_, ?_⟩
        · rw [Int.toNat_of_nonneg hc0]; linarith
        · rw [Int.toNat_of_nonneg hc0]; linarith
  · -- descending: right < left
    have hmem : ∀ v : Int, v ∈ stepped_frames left right s ↔
        ∃ k : Nat, (s : Int) * (k : Int) ≤ left - right ∧
          v = left - (s : Int) * (k : Int) := by
      intro v
      rw [List.mem_iff_getElem?]
      constructor
      · rintro ⟨k, hk⟩
        rw [stepped_frames_desc_getElem? left right s hs h k] at hk
        by_cases hc : (s : Int) * (k : Int) ≤ left - right
        · rw [if_pos hc] at hk
          exact ⟨k, hc, (Option.some.inj hk).symm⟩
        · rw [if_neg hc] at hk
          cases hk
      · rintro ⟨k, hc, rfl⟩
        refine ⟨k, ?_⟩
        rw [stepped_frames_desc_getElem? left right s hs h k, if_pos hc]
    refine ⟨?_, ?_, ?_, ?_⟩
    · intro v hv
      obtain ⟨k, hc, rfl⟩ := (hmem v).mp hv
      have h0 : (0 : Int) ≤ (s : Int) * (k : Int) := by positivity
      refine ⟨?_, ?_, ?_⟩
      · have hd : (s : Int) ∣ (left - (s : Int) * (k : Int) - left) := by
          have he : left - (s : Int) * (k : Int) - left = -((s : Int) * (k : Int)) := by
            ring
          rw [he]
          exact dvd_neg.mpr ⟨(k : Int), rfl⟩
        exact Int.emod_eq_zero_of_dvd hd
      · rw [min_eq_right h.le]; linarith
      · rw [max_eq_left h.le]; linarith
    · rw [stepped_frames_desc_getElem? left right s hs h 0]
      rw [if_pos (by push_cast; omega)]
      push_cast
      norm_num
    · intro k v hkv
      rw [stepped_frames_desc_getElem? left right s hs h k] at hkv
      by_cases hc : (s : Int) * (k : Int) ≤ left - right
      · rw [if_pos hc] at hkv
        rw [if_neg (by omega)]
        have he := (Option.some.inj hkv).symm
        rw [he]
        ring
      · rw [if_neg hc] at hkv
        cases hkv
    · rw [hmem right]
      constructor
      · rintro ⟨k, hc, hv⟩
        have hd : (s : Int) ∣ (right - left) := by
          have he : right - left = -((s : Int) * (k : Int)) := by omega
          rw [he]
          exact dvd_neg.mpr ⟨(k : Int), rfl⟩
        exact Int.emod_eq_zero_of_dvd hd
      · intro hmod
        have hd : (s : Int) ∣ (left - right) := by
          have he : left - right = -(right - left) := by ring
          rw [he]
          exact dvd_neg.mpr (Int.dvd_of_emod_eq_zero hmod)
        obtain ⟨c, hc⟩ := hd
        have hc0 : 0 ≤ c := by
          by_contra hneg
          push_neg at hneg
          have : (s : Int) * c < 0 := mul_neg_of_pos_of_neg hs' hneg
          linarith
        refine ⟨c.toNat, ?_, ?_⟩
        · rw [Int.toNat_of_nonneg hc0]; linarith
        · rw [Int.toNat_of_nonneg hc0]; linarith

/-- Claim C4 witness: the stepped-range specification applied at the
concrete range `10-20@2`; the endpoint `20` is reachable and appears. -/
theorem stepped_frames_c4_spec_witness :
    (0 < 2 ∧ (10 : Int) ≠ 20) ∧
      ((∀ v ∈ stepped_frames 10 20 2,
          (v - 10) % ((2 : Nat) : Int) = 0 ∧
            min (10 : Int) 20 ≤ v ∧ v ≤ max (10 : Int) 20) ∧
        (stepped_frames 10 20 2)[0]? = some 10 ∧
        (∀ (k : Nat) (v : Int), (stepped_frames 10 20 2)[k]? = some v →
            v = 10 + (if (10 : Int) < 20 then ((2 : Nat) : Int)
              else -((2 : Nat) : Int)) * (k : Int)) ∧
        ((20 : Int) ∈ stepped_frames 10 20 2 ↔
          ((20 : Int) - 10) % ((2 : Nat) : Int) = 0)) :=
  ⟨⟨by decide, by decide⟩, stepped_frames_c4_spec 10 20 2 (by decide) (by decide)⟩

theorem parse_ok_nodup (cs : List Char) (l : List Int)
    (h : parse_frame_sequence cs = ParseOutcome.ok l) : l.Nodup := by
  cases hp : parseFrameSequenceString cs with
  | none =>
    have hv : parse_frame_sequence cs = ParseOutcome.syntaxError := by
      simp [parse_frame_sequence, hp]
    rw [hv] at h
    cases h
  | some t =>
    cases hf : frame_sequence_token_tree_to_frames t with
    | none =>
      have hv : parse_frame_sequence cs = ParseOutcome.overflowAbort := by
        simp [parse_frame_sequence, hp, hf]
      rw [hv] at h
      cases h
    | some raw =>
      have hv : parse_frame_sequence cs = ParseOutcome.ok (remove_duplicates raw) := by
        simp [parse_frame_sequence, hp, hf]
      rw [hv] at h
      have he : remove_duplicates raw = l := ParseOutcome.ok.inj h
      rw [← he]
      exact removeDupGo_nodup raw []

/-- Claim C6 (confirmed; the grammar parser is modelled from the spec, the
deduplicator is translated from the source): whenever `parse_frame_sequence`
returns an `Ok` list, that list contains no two equal elements. -/
theorem parse_frame_sequence_c6_nodup (cs : List Char) (l : List Int)
    (h : parse_frame_sequence cs = ParseOutcome.ok l) : l.Nodup :=
  parse_ok_nodup cs l h

/-- Claim C6 witness: at the concrete input `"3,4,3"` the parser succeeds
with `[3, 4]`, which has no duplicates. -/
theorem parse_frame_sequence_c6_nodup_witness :
    parse_frame_sequence "3,4,3".toList = ParseOutcome.ok [3, 4] ∧
      List.Nodup [(3 : Int), 4] :=
  ⟨by decide, parse_frame_sequence_c6_nodup ("3,4,3".toList) [3, 4] (by decide)⟩

/-- Claim C7 (confirmed): `remove_duplicates` returns exactly the first
occurrence of each distinct value of its input, in the relative order in
which those first occurrences appear — it coincides with the
specification-side `firstOccurrences` — and surviving elements are never
reordered: the output is a sublist of the input. -/
theorem remove_duplicates_c7_first_occurrences :
    (∀ l : List Int, remove_duplicates l = firstOccurrences l) ∧
      ∀ l : List Int, (remove_duplicates l).Sublist l := by
  constructor
  · intro l
    rw [remove_duplicates, removeDupGo_eq_firstOccurrences l []]
    congr 1
    apply List.filter_eq_self.mpr
    intro a _
    simp
  · intro l
    exact removeDupGo_sublist l []

/-- Claim C8 (counterexample): on the grammar-valid input
`"9223372036854775808"` (the literal `2^63`, one past the largest `isize`
value) the call aborts with the overflow panic: it returns neither an `Ok`
list nor a `SyntaxError`, refuting the claim that every input returns
either a full `Ok` list or an `Err`. -/
theorem parse_frame_sequence_c8_cex :
    ¬ ((∃ l, parse_frame_sequence "9223372036854775808".toList = ParseOutcome.ok l) ∨
      parse_frame_sequence "9223372036854775808".toList = ParseOutcome.syntaxError) := by
  have h : parse_frame_sequence "9223372036854775808".toList
      = ParseOutcome.overflowAbort := by decide
  rw [h]
  rintro (⟨l, hl⟩ | he)
  · cases hl
  · cases he

/-- Claim C8 (amended): an input the grammar does not match always yields
the typed `SyntaxError` and no output list; and on every input on which the
call returns at all — every input that does not hit the numeric-overflow
abort — it returns exactly one of a full `Ok` list or a `SyntaxError`,
never both. -/
theorem parse_frame_sequence_c8_total (cs : List Char) :
    (parseFrameSequenceString cs = none →
      parse_frame_sequence cs = ParseOutcome.syntaxError) ∧
    (parse_frame_sequence cs ≠ ParseOutcome.overflowAbort →
      (∃ l, parse_frame_sequence cs = ParseOutcome.ok l) ∨
        parse_frame_sequence cs = ParseOutcome.syntaxError) ∧
    ∀ l : List Int, parse_frame_sequence cs = ParseOutcome.ok l →
      parse_frame_sequence cs ≠ ParseOutcome.syntaxError := by
  refine ⟨?_, ?_, ?_⟩
  · intro h
    simp [parse_frame_sequence, h]
  · intro h
    cases hp : parse_frame_sequence cs with
    | ok l => exact Or.inl ⟨l, rfl⟩
    | syntaxError => exact Or.inr rfl
    | overflowAbort => exact absurd hp h
  · intro l h hcontra
    rw [h] at hcontra
    cases hcontra

/-- Claim C8 witness: the amended statement applied at the concrete input
`"2,1"`, which does not abort and yields an `Ok` result. -/
theorem parse_frame_sequence_c8_total_witness :
    (parse_frame_sequence "2,1".toList ≠ ParseOutcome.overflowAbort) ∧
      ((∃ l, parse_frame_sequence "2,1".toList = ParseOutcome.ok l) ∨
        parse_frame_sequence "2,1".toList = ParseOutcome.syntaxError) :=
  ⟨by decide, (parse_frame_sequence_c8_total ("2,1".toList)).2.1 (by decide)⟩

/-- Claim C9 (counterexample): the input `",9999999999999999999"` contains a
digit run whose value exceeds the `isize` range, yet the call returns the
typed `SyntaxError` — the grammar rejects the leading comma before any
numeric conversion runs — contradicting the claim that every input
containing such a digit run avoids a typed error and panics in
`frame_to_number`. -/
theorem parse_frame_sequence_c9_cex :
    parse_frame_sequence (',' :: "9999999999999999999".toList)
        = ParseOutcome.syntaxError ∧
      isizeMax < (digitsToNat "9999999999999999999".toList : Int) :=
  ⟨by decide, by decide⟩

/-- Claim C9 (amended): for every input that the grammar accepts and whose
token tree contains a digit run exceeding the `isize` range, the call does
not return a typed error value: it aborts with the modelled
`frame_to_number` panic.  Moreover there is no silent wraparound — whenever
`frame_to_number` returns a value, it is the exact mathematical value of
the literal and lies within the `isize` range. -/
theorem parse_frame_sequence_c9_overflow :
    (∀ (cs : List Char) (t : List FrameSequencePart),
        parseFrameSequenceString cs = some t → treeHasOverflow t = true →
          parse_frame_sequence cs = ParseOutcome.overflowAbort) ∧
      ∀ (tok : FrameTok) (v : Int), frame_to_number tok = some v →
        v = frameTokVal tok ∧ isizeMin ≤ v ∧ v ≤ isizeMax := by
  constructor
  · intro cs t hp ho
    simp [parse_frame_sequence, hp, tree_to_frames_overflow t ho]
  · intro tok v h
    simp only [frame_to_number] at h
    by_cases hc : isizeMin ≤ frameTokVal tok ∧ frameTokVal tok ≤ isizeMax
    · rw [if_pos hc] at h
      have hv : v = frameTokVal tok := (Option.some.inj h).symm
      exact ⟨hv, by rw [hv]; exact hc.1, by rw [hv]; exact hc.2⟩
    · rw [if_neg hc] at h
      cases h

/-- Claim C9 witness: the amended statement applied at the grammar-valid
overflowing input `"-9999999999999999999"`. -/
theorem parse_frame_sequence_c9_overflow_witness :
    parseFrameSequenceString "-9999999999999999999".toList
        = some [FrameSequencePart.frame ⟨true, "9999999999999999999".toList⟩] ∧
      treeHasOverflow
          [FrameSequencePart.frame ⟨true, "9999999999999999999".toList⟩] = true ∧
      parse_frame_sequence "-9999999999999999999".toList
        = ParseOutcome.overflowAbort :=
  ⟨by decide, by decide,
    parse_frame_sequence_c9_overflow.1 ("-9999999999999999999".toList)
      [FrameSequencePart.frame ⟨true, "9999999999999999999".toList⟩]
      (by decide) (by decide)⟩

/-- Claim C10 (confirmed): `remove_duplicates` is idempotent, and every list
that `parse_frame_sequence` returns successfully is a fixpoint of
`remove_duplicates`. -/
theorem remove_duplicates_c10_idempotent :
    (∀ l : List Int, remove_duplicates (remove_duplicates l) = remove_duplicates l) ∧
      ∀ (cs : List Char) (l : List Int),
        parse_frame_sequence cs = ParseOutcome.ok l → remove_duplicates l = l := by
  have hfix : ∀ l : List Int, l.Nodup → remove_duplicates l = l := by
    intro l hl
    exact removeDupGo_eq_self l [] hl (by intro x _; simp)
  constructor
  · intro l
    exact hfix _ (removeDupGo_nodup l [])
  · intro cs l h
    exact hfix l (parse_ok_nodup cs l h)

/-- Claim C10 witness: the parse of `"1,2,1"` returns `[1, 2]`, a fixpoint
of `remove_duplicates`. -/
theorem remove_duplicates_c10_idempotent_witness :
    parse_frame_sequence "1,2,1".toList = ParseOutcome.ok [1, 2] ∧
      remove_duplicates [1, 2] = [1, 2] :=
  ⟨by decide,
    remove_duplicates_c10_idempotent.2 ("1,2,1".toList) [1, 2] (by decide)⟩

end FrameSeq
